import Mathlib

/-!
# Verification of pdfgridcat (`src/pdfgridcat/cli.py`)

Shallow embedding of the page-composition core of pdfgridcat.

Modelling choices:
* A pypdf `PageObject` is modelled by `Page`: a mediabox (width, height)
  together with the list of placed copies of original input-page content
  (`Item`s).  An original input page is a `Page` with a single item at
  offset (0, 0); `merge_translated_page` appends the merged page's items,
  translated by the given offset, exactly as pypdf stamps content with a
  translation transformation.
* Page dimensions are modelled by exact rationals `ℚ` (the Python code
  computes with floats; the arithmetic itself — sums, maxes, differences —
  is modelled exactly).
* Writing a PDF file is modelled by returning the list of its pages; a
  Python exception escaping before the output file is opened is modelled
  by `Except.error` (no output is produced).
* `MAX_OPEN_FILE` is a module constant (30) in the source; per the spec it
  is "a constant an implementer may override", so the embedding takes it
  as an explicit parameter `mof` (a natural number: "maxOpenFiles (int ≥ 1)").
-/

namespace Pdfgridcat

/-- A placed copy of the content of the original input page `id`,
translated to offset `(x, y)` inside its containing page. -/
structure Item where
  id : ℕ
  x : ℚ
  y : ℚ
deriving DecidableEq

/-- A pypdf page: a mediabox (width × height) and the placed content. -/
structure Page where
  width : ℚ
  height : ℚ
  items : List Item
deriving DecidableEq

/-- Translate a placed content item by `(dx, dy)`. -/
def Item.translate (dx dy : ℚ) (it : Item) : Item :=
  ⟨it.id, it.x + dx, it.y + dy⟩

/-- An original (leaf) input page: its own content at offset (0,0). -/
def leafPage (id : ℕ) (w h : ℚ) : Page :=
  ⟨w, h, [⟨id, 0, 0⟩]⟩

/-- pypdf `base.merge_page(p)`: stamp `p`'s content onto `base` with no
translation.  The mediabox of `base` is unchanged. -/
def merge_page (base p : Page) : Page :=
  { base with items := base.items ++ p.items }

/-- pypdf `base.merge_translated_page(p, dx, dy)`: stamp `p`'s content onto
`base` translated by `(dx, dy)`.  The mediabox of `base` is unchanged. -/
def merge_translated_page (base p : Page) (dx dy : ℚ) : Page :=
  { base with items := base.items ++ p.items.map (Item.translate dx dy) }

/-- `concat_pdf(pages, horizontal)` from `cli.py`:

* empty `pages` raises `ValueError("pages must be a non-empty list")`;
* horizontal: total width = sum of widths, total height = max of heights
  (Python's `max` over a non-empty sequence is a left fold starting from
  the first element); the first page is merged with `merge_page`, then each
  later page at the running offset, which is increased by that page's width
  after merging;
* vertical: total width = max of widths, total height = sum of heights;
  the first page is merged at `total_height - h(pages[0])`, and for each
  later page the offset is first decreased by that page's height and the
  page merged there. -/
def concat_pdf (pages : List Page) (horizontal : Bool) : Except String Page :=
  match pages with
  | [] => .error "pages must be a non-empty list"
  | p0 :: rest =>
    let total_width : ℚ :=
      if horizontal then p0.width + (rest.map Page.width).sum
      else (rest.map Page.width).foldl max p0.width
    let total_height : ℚ :=
      if horizontal then (rest.map Page.height).foldl max p0.height
      else p0.height + (rest.map Page.height).sum
    let new_page : Page := ⟨total_width, total_height, []⟩
    if horizontal then
      .ok (rest.foldl
        (fun acc p => (merge_translated_page acc.1 p acc.2 0, acc.2 + p.width))
        (merge_page new_page p0, p0.width)).1
    else
      .ok (rest.foldl
        (fun acc p => (merge_translated_page acc.1 p 0 (acc.2 - p.height), acc.2 - p.height))
        (merge_translated_page new_page p0 0 (total_height - p0.height),
         total_height - p0.height)).1

/-- Content of pages placed left-to-right: the first page at x-offset
`off`, each following page at the previous offset plus the previous
page's width (the running offset of the horizontal loop of `concat_pdf`). -/
def placeRow (off : ℚ) : List Page → List Item
  | [] => []
  | p :: ps => p.items.map (Item.translate off 0) ++ placeRow (off + p.width) ps

/-- Content of pages stacked downwards after the first one: each page is
placed at the previous offset minus that page's own height (the running
offset of the vertical loop of `concat_pdf`). -/
def placeColAfter (off : ℚ) : List Page → List Item
  | [] => []
  | p :: ps =>
    p.items.map (Item.translate 0 (off - p.height)) ++ placeColAfter (off - p.height) ps

theorem foldH (rest : List Page) : ∀ (acc : Page) (off : ℚ),
    (rest.foldl
      (fun acc p => (merge_translated_page acc.1 p acc.2 0, acc.2 + p.width))
      (acc, off)).1
    = { acc with items := acc.items ++ placeRow off rest } := by
  induction rest with
  | nil => intro acc off; simp [placeRow]
  | cons p ps ih =>
    intro acc off
    simp only [List.foldl_cons, placeRow]
    rw [ih]
    simp [merge_translated_page, List.append_assoc]

theorem foldV (rest : List Page) : ∀ (acc : Page) (off : ℚ),
    (rest.foldl
      (fun acc p => (merge_translated_page acc.1 p 0 (acc.2 - p.height), acc.2 - p.height))
      (acc, off)).1
    = { acc with items := acc.items ++ placeColAfter off rest } := by
  induction rest with
  | nil => intro acc off; simp [placeColAfter]
  | cons p ps ih =>
    intro acc off
    simp only [List.foldl_cons, placeColAfter]
    rw [ih]
    simp [merge_translated_page, List.append_assoc]

/-- Source-shaped characterization of horizontal composition. -/
theorem concat_pdf_h (p0 : Page) (rest : List Page) :
    concat_pdf (p0 :: rest) true =
      .ok ⟨p0.width + (rest.map Page.width).sum,
           (rest.map Page.height).foldl max p0.height,
           p0.items ++ placeRow p0.width rest⟩ := by
  simp only [concat_pdf]
  rw [foldH]
  simp [merge_page]

/-- Source-shaped characterization of vertical composition. -/
theorem concat_pdf_v (p0 : Page) (rest : List Page) :
    concat_pdf (p0 :: rest) false =
      .ok ⟨(rest.map Page.width).foldl max p0.width,
           p0.height + (rest.map Page.height).sum,
           p0.items.map
             (Item.translate 0 (p0.height + (rest.map Page.height).sum - p0.height))
           ++ placeColAfter (p0.height + (rest.map Page.height).sum - p0.height) rest⟩ := by
  simp only [concat_pdf]
  rw [foldV]
  simp [merge_translated_page]

/-- Horizontal placement offsets starting at `off`: the `k`-th entry is
`off` plus the sum of the widths of the pages before page `k`. -/
def hOffsetsFrom (off : ℚ) (pages : List Page) : List ℚ :=
  (List.range pages.length).map (fun k => off + ((pages.take k).map Page.width).sum)

/-- Horizontal placement offsets of the composed page: the `k`-th entry is
the sum of the widths of pages `0..k-1`. -/
def hOffsets (pages : List Page) : List ℚ :=
  (List.range pages.length).map (fun k => ((pages.take k).map Page.width).sum)

theorem hOffsetsFrom_cons (off : ℚ) (p : Page) (ps : List Page) :
    hOffsetsFrom off (p :: ps) = off :: hOffsetsFrom (off + p.width) ps := by
  simp only [hOffsetsFrom, List.length_cons, List.range_succ_eq_map, List.map_cons,
    List.map_map]
  rw [List.cons.injEq]
  constructor
  · simp
  · apply List.map_congr_left
    intro k _
    simp [List.take_succ_cons, Function.comp, add_assoc]

theorem placeRow_eq_zip (pages : List Page) : ∀ off : ℚ,
    placeRow off pages
      = (pages.zip (hOffsetsFrom off pages)).flatMap
          (fun q => q.1.items.map (Item.translate q.2 0)) := by
  induction pages with
  | nil => intro off; simp [placeRow, hOffsetsFrom]
  | cons p ps ih =>
    intro off
    rw [hOffsetsFrom_cons]
    simp only [placeRow, List.zip_cons_cons, List.flatMap_cons]
    rw [ih]

theorem hOffsetsFrom_zero (pages : List Page) : hOffsetsFrom 0 pages = hOffsets pages := by
  simp [hOffsetsFrom, hOffsets]

/-- Vertical placement offsets, starting from running offset `off`
(initially the total height): the first page's offset is `off` minus its
own height, and each subsequent page's offset is the previous offset minus
that page's own height. -/
def vOffsetsFrom (off : ℚ) : List Page → List ℚ
  | [] => []
  | p :: ps => (off - p.height) :: vOffsetsFrom (off - p.height) ps

theorem placeColAfter_eq_zip (pages : List Page) : ∀ off : ℚ,
    placeColAfter off pages
      = (pages.zip (vOffsetsFrom off pages)).flatMap
          (fun q => q.1.items.map (Item.translate 0 q.2)) := by
  induction pages with
  | nil => intro off; simp [placeColAfter, vOffsetsFrom]
  | cons p ps ih =>
    intro off
    simp only [placeColAfter, vOffsetsFrom, List.zip_cons_cons, List.flatMap_cons]
    rw [ih]

/-- Closed form of the vertical placement offsets: the offset of page `k`
is the total height minus the sum of the heights of pages `0..k`. -/
def vOffsetsClosed (pages : List Page) : List ℚ :=
  (List.range pages.length).map
    (fun k => (pages.map Page.height).sum - ((pages.take (k + 1)).map Page.height).sum)

theorem vOffsetsFrom_closed (pages : List Page) : ∀ off : ℚ,
    vOffsetsFrom off pages
      = (List.range pages.length).map
          (fun k => off - ((pages.take (k + 1)).map Page.height).sum) := by
  induction pages with
  | nil => intro off; simp [vOffsetsFrom]
  | cons p ps ih =>
    intro off
    simp only [vOffsetsFrom, List.length_cons, List.range_succ_eq_map, List.map_cons,
      List.map_map]
    rw [List.cons.injEq]
    constructor
    · simp
    · rw [ih (off - p.height)]
      apply List.map_congr_left
      intro k _
      simp only [Function.comp]
      rw [List.take_succ_cons]
      simp only [List.map_cons, List.sum_cons]
      ring

/-- Python's `max` of a non-empty sequence, as a left fold: the result is
one of the elements. -/
theorem foldl_max_mem (l : List ℚ) : ∀ a : ℚ, l.foldl max a ∈ a :: l := by
  induction l with
  | nil => intro a; simp
  | cons x xs ih =>
    intro a
    simp only [List.foldl_cons]
    rcases List.mem_cons.mp (ih (max a x)) with h | h
    · rw [h]
      rcases max_choice a x with h' | h' <;> rw [h'] <;> simp
    · simp [h]

/-- Python's `max` of a non-empty sequence bounds every element. -/
theorem le_foldl_max (l : List ℚ) : ∀ a : ℚ,
    a ≤ l.foldl max a ∧ ∀ x ∈ l, x ≤ l.foldl max a := by
  induction l with
  | nil => intro a; simp
  | cons y ys ih =>
    intro a
    simp only [List.foldl_cons]
    obtain ⟨h1, h2⟩ := ih (max a y)
    refine ⟨le_trans (le_max_left a y) h1, ?_⟩
    intro x hx
    rcases List.mem_cons.mp hx with h | h
    · rw [h]; exact le_trans (le_max_right a y) h1
    · exact h2 x h

/-- Python `range(0, stop, step)` for `step ≠ 0` and `stop ≥ 0` (the only
uses in `cli.py`): for positive `step` the list `[0, step, 2*step, ...]`
of `⌈stop/step⌉` elements; for negative `step` (and nonnegative `stop`)
the empty range. -/
def pyRange0 (stop step : ℤ) : List ℤ :=
  if 0 < step then
    (List.range ((stop + step - 1) / step).toNat).map (fun k : ℕ => (k : ℤ) * step)
  else []

/-- Python slice `l[a:b]` for `0 ≤ a` (the only uses in `cli.py`). -/
def pySlice {α : Type} (l : List α) (a b : ℤ) : List α :=
  (l.drop a.toNat).take (b - a).toNat

theorem pySlice_length_le {α : Type} (l : List α) (a b : ℤ) :
    (pySlice l a b).length ≤ (b - a).toNat := by
  simp [pySlice]

/-- A Python `for` loop that collects one result per iteration and lets
the first raised exception escape. -/
def mapE {α β : Type} (f : α → Except String β) : List α → Except String (List β)
  | [] => .ok []
  | a :: l =>
    match f a with
    | .error e => .error e
    | .ok b =>
      match mapE f l with
      | .error e => .error e
      | .ok bs => .ok (b :: bs)

theorem mapE_map {α β γ : Type} (f : β → Except String γ) (g : α → β) (l : List α) :
    mapE f (l.map g) = mapE (fun a => f (g a)) l := by
  induction l with
  | nil => rfl
  | cons a l ih => simp only [List.map_cons, mapE, ih]

theorem mapE_congr {α β : Type} {f g : α → Except String β} {l : List α}
    (h : ∀ a ∈ l, f a = g a) : mapE f l = mapE g l := by
  induction l with
  | nil => rfl
  | cons a l ih =>
    simp only [mapE, h a (List.mem_cons_self a l),
      ih (fun x hx => h x (List.mem_cons_of_mem a hx))]

theorem mapE_attach {α β : Type} (f : α → Except String β) (l : List α)
    (g : {x // x ∈ l} → Except String β) (hg : ∀ c, g c = f c.1) :
    mapE g l.attach = mapE f l := by
  rw [mapE_congr (fun a _ => hg a)]
  conv_rhs => rw [← List.attach_map_subtype_val l]
  rw [mapE_map]

/-- Consecutive chunks of `m` elements (the last chunk may be shorter);
for `m = 0` it behaves like `m = 1`.  This is the decomposition performed
by the slice loops of `cli.py` for a positive step, see `pyRange0_slices`. -/
def chunksN {α : Type} (m : ℕ) : List α → List (List α)
  | [] => []
  | a :: l => (a :: l.take (m - 1)) :: chunksN m (l.drop (m - 1))
termination_by l => l.length
decreasing_by simp [List.length_drop]; omega

/-- `concat_pdf_pages`'s direct (non-batched) path from `cli.py`: the outer
loop walks blocks of `per_page = col * row` input pages; the source's local
`pages_in_block` is `pySlice inputs i (min (i + col*row) len)` (written out
twice below); each block's row strips are composed horizontally and the
strips vertically, and the resulting grid pages are written to the output
file in order.  A `per_page` of zero raises `ValueError` from `range`. -/
def directPath (inputs : List Page) (col row : ℤ) : Except String (List Page) :=
  if col * row = 0 then .error "ValueError: range() arg 3 must not be zero"
  else
    mapE (fun i =>
      match mapE (fun j =>
          concat_pdf
            (pySlice (pySlice inputs i (min (i + col * row) (inputs.length : ℤ))) j
              (min (j + col)
                ((pySlice inputs i (min (i + col * row) (inputs.length : ℤ))).length : ℤ)))
            true)
          (pyRange0 (min (col * row) ((inputs.length : ℤ) - i)) col) with
      | .error e => .error e
      | .ok page_rows => concat_pdf page_rows false)
      (pyRange0 (inputs.length : ℤ) (col * row))

/-- The source constant `MAX_OPEN_FILE = 30`. -/
def MAX_OPEN_FILE : ℕ := 30

/-- `pdf_in_file` from `use_temp_files`:
`max((MAX_OPEN_FILE // pdf_in_page), 1) * pdf_in_page` (Python `//` is
floor division, `Int.fdiv`). -/
def pdf_in_file (mof pdf_in_page : ℤ) : ℤ :=
  max (Int.fdiv mof pdf_in_page) 1 * pdf_in_page

/-- The chunk decomposition of `use_temp_files`: `num_files` consecutive
slices `input_files[pdf_in_file*i : min(total_files, pdf_in_file*(i+1))]`,
with `num_files = (total_files - 1) // pdf_in_file + 1`. -/
def batchChunks (mof : ℤ) (inputs : List Page) (pdf_in_page : ℤ) : List (List Page) :=
  (List.range (Int.fdiv ((inputs.length : ℤ) - 1) (pdf_in_file mof pdf_in_page) + 1).toNat).map
    (fun i : ℕ =>
      pySlice inputs (pdf_in_file mof pdf_in_page * (i : ℤ))
        (min ((inputs.length : ℤ)) (pdf_in_file mof pdf_in_page * ((i : ℤ) + 1))))

theorem pdf_in_file_le (mof : ℤ) (pp : ℤ) (hpp : 1 ≤ pp) :
    pdf_in_file mof pp ≤ max mof pp := by
  unfold pdf_in_file
  rcases le_or_lt 1 (Int.fdiv mof pp) with h | h
  · rw [max_eq_left h, Int.fdiv_eq_ediv _ (by omega : (0:ℤ) ≤ pp)]
    exact le_trans (Int.ediv_mul_le mof (by omega : pp ≠ 0)) (le_max_left _ _)
  · rw [max_eq_right (by omega : Int.fdiv mof pp ≤ 1), one_mul]
    exact le_max_right _ _

theorem pdf_in_file_pos (mof : ℤ) (pp : ℤ) (hpp : 1 ≤ pp) :
    1 ≤ pdf_in_file mof pp := by
  unfold pdf_in_file
  have h1 : 1 ≤ max (Int.fdiv mof pp) 1 := le_max_right _ _
  nlinarith

theorem pdf_in_file_nonpos (mof : ℤ) (pp : ℤ) (hpp : pp < 0) :
    pdf_in_file mof pp ≤ pp := by
  unfold pdf_in_file
  have h1 : (1:ℤ) ≤ max (Int.fdiv mof pp) 1 := le_max_right _ _
  nlinarith

theorem batchChunks_length_lt (mof : ℕ) (inputs : List Page) (pp : ℤ)
    (hpp : pp ≠ 0) (hbig : max (mof : ℤ) pp < (inputs.length : ℤ)) :
    ∀ c ∈ batchChunks (mof : ℤ) inputs pp, c.length < inputs.length := by
  intro c hc
  simp only [batchChunks, List.mem_map, List.mem_range] at hc
  obtain ⟨i, -, rfl⟩ := hc
  have hL := pySlice_length_le inputs (pdf_in_file (mof : ℤ) pp * (i : ℤ))
    (min ((inputs.length : ℤ)) (pdf_in_file (mof : ℤ) pp * ((i : ℤ) + 1)))
  revert hL
  generalize (pySlice inputs (pdf_in_file (mof : ℤ) pp * (i : ℤ))
    (min ((inputs.length : ℤ)) (pdf_in_file (mof : ℤ) pp * ((i : ℤ) + 1)))).length = L
  intro hL
  have hmul : pdf_in_file (mof : ℤ) pp * ((i : ℤ) + 1)
      = pdf_in_file (mof : ℤ) pp * (i : ℤ) + pdf_in_file (mof : ℤ) pp := by ring
  have hmof : (0 : ℤ) ≤ (mof : ℤ) := Int.natCast_nonneg mof
  rw [hmul] at hL
  rcases lt_or_le pp 0 with hneg | hpos
  · have hle := pdf_in_file_nonpos (mof : ℤ) pp hneg
    generalize pdf_in_file (mof : ℤ) pp * (i : ℤ) = A at hL
    omega
  · have hpp1 : 1 ≤ pp := by omega
    have hle := pdf_in_file_le (mof : ℤ) pp hpp1
    have hpos1 := pdf_in_file_pos (mof : ℤ) pp hpp1
    generalize pdf_in_file (mof : ℤ) pp * (i : ℤ) = A at hL
    omega

/-- `concat_pdf_pages` from `cli.py`, with `MAX_OPEN_FILE` generalized to
the parameter `mof` (spec: "maxOpenFiles (int ≥ 1) ... a constant an
implementer may override").  If the number of inputs exceeds
`max(mof, col*row)` the work is delegated to `use_temp_files` (inlined
here because the two functions are mutually recursive in the source; the
standalone `use_temp_files` below is proved to coincide): the inputs are
split into `batchChunks`, each chunk is processed by a recursive call
(producing one intermediate file), and the intermediate files' pages are
appended in order into the final output.  A `col * row` of zero raises
`ZeroDivisionError` at the `MAX_OPEN_FILE // pdf_in_page` computation.
Otherwise the direct path runs. -/
def concat_pdf_pages (mof : ℕ) (inputs : List Page) (col row : ℤ) :
    Except String (List Page) :=
  if hbig : max (mof : ℤ) (col * row) < (inputs.length : ℤ) then
    if hpp : col * row = 0 then
      .error "ZeroDivisionError: integer division or modulo by zero"
    else
      match mapE (fun c => concat_pdf_pages mof c.1 col row)
          (batchChunks (mof : ℤ) inputs (col * row)).attach with
      | .error e => .error e
      | .ok rs => .ok rs.flatten
  else
    directPath inputs col row
termination_by inputs.length
decreasing_by
  exact batchChunks_length_lt mof inputs (col * row) hpp hbig _ c.2

/-- `use_temp_files` from `cli.py`: splits the inputs into `batchChunks`,
produces one intermediate file per chunk via `concat_pdf_pages`, then
appends all pages of every intermediate file, in order, into the final
output (and removes the intermediate files). -/
def use_temp_files (mof : ℕ) (inputs : List Page) (col row : ℤ) :
    Except String (List Page) :=
  if col * row = 0 then
    .error "ZeroDivisionError: integer division or modulo by zero"
  else
    match mapE (fun c => concat_pdf_pages mof c col row)
        (batchChunks (mof : ℤ) inputs (col * row)) with
    | .error e => .error e
    | .ok rs => .ok rs.flatten

theorem concat_pdf_pages_big (mof : ℕ) (inputs : List Page) (col row : ℤ)
    (h : max (mof : ℤ) (col * row) < (inputs.length : ℤ)) :
    concat_pdf_pages mof inputs col row = use_temp_files mof inputs col row := by
  rw [concat_pdf_pages, use_temp_files, dif_pos h]
  by_cases hpp : col * row = 0
  · rw [dif_pos hpp, if_pos hpp]
  · rw [dif_neg hpp, if_neg hpp,
      mapE_attach (fun x => concat_pdf_pages mof x col row) _
        (fun c => concat_pdf_pages mof c.1 col row) (fun c => rfl)]

theorem concat_pdf_pages_small (mof : ℕ) (inputs : List Page) (col row : ℤ)
    (h : ¬ max (mof : ℤ) (col * row) < (inputs.length : ℤ)) :
    concat_pdf_pages mof inputs col row = directPath inputs col row := by
  rw [concat_pdf_pages, dif_neg h]

theorem pyRange0_nonpos (n s : ℤ) (hs : 1 ≤ s) (hn : n ≤ 0) : pyRange0 n s = [] := by
  unfold pyRange0
  rw [if_pos (by omega : (0:ℤ) < s)]
  have h1 : (n + s - 1) / s < 1 :=
    (Int.ediv_lt_iff_lt_mul (by omega : (0:ℤ) < s)).mpr (by omega)
  have h2 : ((n + s - 1) / s).toNat = 0 := by omega
  rw [h2]
  rfl

theorem pyRange0_mem_nonneg {n s i : ℤ} (hs : 0 < s) (hi : i ∈ pyRange0 n s) : 0 ≤ i := by
  unfold pyRange0 at hi
  rw [if_pos hs] at hi
  simp only [List.mem_map] at hi
  obtain ⟨k, -, rfl⟩ := hi
  exact mul_nonneg (Int.natCast_nonneg k) (le_of_lt hs)

theorem pyRange0_cons (n s : ℤ) (hs : 1 ≤ s) (hn : 1 ≤ n) :
    pyRange0 n s = 0 :: (pyRange0 (n - s) s).map (fun i => i + s) := by
  have hs0 : (0:ℤ) < s := by omega
  have hne : s ≠ 0 := by omega
  have he : (n + s - 1) / s = (n - 1) / s + 1 := by
    have h := Int.add_mul_ediv_right (n - 1) 1 hne
    rw [one_mul] at h
    rw [show n + s - 1 = n - 1 + s by ring, h]
  have he2 : n - s + s - 1 = n - 1 := by ring
  have hnn : 0 ≤ (n - 1) / s := Int.ediv_nonneg (by omega) (by omega)
  unfold pyRange0
  rw [if_pos hs0, if_pos hs0, he2, he]
  have ht : ((n - 1) / s + 1).toNat = ((n - 1) / s).toNat + 1 := by omega
  rw [ht, List.range_succ_eq_map]
  simp only [List.map_cons, List.map_map]
  rw [List.cons.injEq]
  refine ⟨by simp, ?_⟩
  apply List.map_congr_left
  intro k _
  simp only [Function.comp, Nat.succ_eq_add_one]
  push_cast
  ring

theorem pyRange0_slices {α : Type} (s : ℤ) (hs : 1 ≤ s) :
    ∀ (n : ℕ) (l : List α), l.length = n →
      (pyRange0 (l.length : ℤ) s).map
          (fun i => pySlice l i (min (i + s) (l.length : ℤ)))
        = chunksN s.toNat l := by
  intro n
  induction n using Nat.strong_induction_on with
  | _ n ih =>
    intro l hl
    match l with
    | [] =>
      rw [pyRange0_nonpos _ s hs (by simp)]
      simp [chunksN]
    | a :: l' =>
      have hlen1 : 1 ≤ ((a :: l').length : ℤ) := by simp
      rw [pyRange0_cons _ s hs hlen1]
      simp only [List.map_cons, List.map_map]
      rw [chunksN, List.cons.injEq]
      constructor
      · -- head chunk
        simp only [pySlice, zero_add, Int.toNat_zero, List.drop_zero, sub_zero]
        have h1 : (min s ((a :: l').length : ℤ)).toNat = min s.toNat (a :: l').length := by
          rcases le_or_lt s ((a :: l').length : ℤ) with h | h
          · rw [min_eq_left h, min_eq_left (by omega)]
          · rw [min_eq_right (by omega), min_eq_right (by omega)]
            simp
        rw [h1]
        have h2 : List.take (min s.toNat (a :: l').length) (a :: l')
            = List.take s.toNat (a :: l') := by
          rcases le_or_lt s.toNat (a :: l').length with h | h
          · rw [min_eq_left h]
          · rw [min_eq_right (by omega), List.take_length,
              List.take_of_length_le (by omega)]
        rw [h2, show s.toNat = (s.toNat - 1) + 1 by omega, List.take_succ_cons]
        simp
      · -- remaining chunks
        rcases le_or_lt ((a :: l').length : ℤ) s with hsl | hsl
        · -- only one chunk: both tails are empty
          rw [pyRange0_nonpos _ s hs (by omega)]
          have hd : l'.drop (s.toNat - 1) = [] := by
            apply List.drop_eq_nil_of_le
            simp only [List.length_cons] at hsl
            push_cast at hsl
            omega
          rw [hd]
          simp [chunksN]
        · -- at least one full chunk; use the induction hypothesis on the dropped list
          have hdd : (a :: l').drop s.toNat = l'.drop (s.toNat - 1) := by
            rw [show s.toNat = (s.toNat - 1) + 1 by omega]
            simp [List.drop_succ_cons]
          have hdlen : (l'.drop (s.toNat - 1)).length < n := by
            simp only [List.length_drop]
            simp only [List.length_cons] at hl
            omega
          have hIH := ih (l'.drop (s.toNat - 1)).length hdlen (l'.drop (s.toNat - 1)) rfl
          rw [← hIH]
          have hlendrop : ((l'.drop (s.toNat - 1)).length : ℤ) = ((a :: l').length : ℤ) - s := by
            have hd1 : (l'.drop (s.toNat - 1)).length = l'.length - (s.toNat - 1) := by
              simp
            rw [hd1]
            simp only [List.length_cons] at hsl ⊢
            push_cast at hsl
            omega
          rw [hlendrop]
          apply List.map_congr_left
          intro i hi
          have hi0 : 0 ≤ i := pyRange0_mem_nonneg (by omega) hi
          simp only [Function.comp_apply, Function.comp]
          rw [← hdd]
          simp only [pySlice, List.drop_drop]
          have h2 : s.toNat + i.toNat = (i + s).toNat := by omega
          rw [h2]
          congr 1
          omega

theorem pyRange0_mem_lt {n s i : ℤ} (hs : 1 ≤ s) (hi : i ∈ pyRange0 n s) : i < n := by
  unfold pyRange0 at hi
  rw [if_pos (by omega : (0:ℤ) < s)] at hi
  simp only [List.mem_map, List.mem_range] at hi
  obtain ⟨k, hk, rfl⟩ := hi
  have hk' : (k : ℤ) < (n + s - 1) / s := by omega
  have he : (n + s - 1) / s = (n - 1) / s + 1 := by
    have h := Int.add_mul_ediv_right (n - 1) 1 (by omega : s ≠ 0)
    rw [one_mul] at h
    rw [show n + s - 1 = n - 1 + s by ring, h]
  have hk2 : (k : ℤ) ≤ (n - 1) / s := by omega
  have h3 : (k : ℤ) * s ≤ ((n - 1) / s) * s :=
    mul_le_mul_of_nonneg_right hk2 (by omega)
  have h4 : ((n - 1) / s) * s ≤ n - 1 := Int.ediv_mul_le (n - 1) (by omega)
  linarith

theorem pySlice_block_length {α : Type} (l : List α) (pp i : ℤ) (hpp : 1 ≤ pp)
    (hi0 : 0 ≤ i) (hilt : i < (l.length : ℤ)) :
    ((pySlice l i (min (i + pp) (l.length : ℤ))).length : ℤ)
      = min pp ((l.length : ℤ) - i) := by
  simp only [pySlice, List.length_take, List.length_drop]
  omega

/-- One grid page of the direct path, in chunk form: the block's row
strips (`chunksN col`) composed horizontally, then stacked vertically.
Proved equal to the range/slice loops of `directPath` in
`directPath_eq_gridBlocks`. -/
def gridBlock (colN : ℕ) (block : List Page) : Except String Page :=
  match mapE (fun strip => concat_pdf strip true) (chunksN colN block) with
  | .error e => .error e
  | .ok page_rows => concat_pdf page_rows false

theorem innerStrips (b : List Page) (col : ℤ) (hc : 1 ≤ col) :
    mapE (fun j => concat_pdf (pySlice b j (min (j + col) (b.length : ℤ))) true)
        (pyRange0 (b.length : ℤ) col)
      = mapE (fun strip => concat_pdf strip true) (chunksN col.toNat b) := by
  conv_rhs => rw [← pyRange0_slices col hc b.length b rfl]
  rw [mapE_map]

theorem directPath_eq_gridBlocks (inputs : List Page) (col row : ℤ)
    (hc : 1 ≤ col) (hr : 1 ≤ row) :
    directPath inputs col row
      = mapE (gridBlock col.toNat) (chunksN (col * row).toNat inputs) := by
  have hpp : (0:ℤ) < col * row := mul_pos (by omega) (by omega)
  unfold directPath
  rw [if_neg (by omega : ¬ col * row = 0)]
  have h1 : ∀ i ∈ pyRange0 (inputs.length : ℤ) (col * row),
      (match mapE (fun j =>
          concat_pdf
            (pySlice (pySlice inputs i (min (i + col * row) (inputs.length : ℤ))) j
              (min (j + col)
                ((pySlice inputs i (min (i + col * row) (inputs.length : ℤ))).length : ℤ)))
            true)
          (pyRange0 (min (col * row) ((inputs.length : ℤ) - i)) col) with
        | .error e => .error e
        | .ok page_rows => concat_pdf page_rows false)
      = gridBlock col.toNat (pySlice inputs i (min (i + col * row) (inputs.length : ℤ))) := by
    intro i hi
    have hi0 : 0 ≤ i := pyRange0_mem_nonneg hpp hi
    have hilt : i < (inputs.length : ℤ) := pyRange0_mem_lt (by omega) hi
    have hlen := pySlice_block_length inputs (col * row) i (by omega) hi0 hilt
    rw [show min (col * row) ((inputs.length : ℤ) - i)
        = ((pySlice inputs i (min (i + col * row) (inputs.length : ℤ))).length : ℤ) from
      hlen.symm]
    rw [innerStrips _ col hc]
    rfl
  rw [mapE_congr h1]
  have h2 := pyRange0_slices (col * row) (by omega) inputs.length inputs rfl
  rw [← h2, mapE_map]

theorem batchChunks_eq_chunksN (mof : ℤ) (inputs : List Page) (pp : ℤ) (hpp : 1 ≤ pp) :
    batchChunks mof inputs pp = chunksN (pdf_in_file mof pp).toNat inputs := by
  have hpif : 1 ≤ pdf_in_file mof pp := pdf_in_file_pos mof pp hpp
  have h2 := pyRange0_slices (pdf_in_file mof pp) hpif inputs.length inputs rfl
  rw [← h2]
  unfold batchChunks pyRange0
  rw [if_pos (by omega : (0:ℤ) < pdf_in_file mof pp), List.map_map]
  have hcnt : (Int.fdiv ((inputs.length : ℤ) - 1) (pdf_in_file mof pp) + 1).toNat
      = (((inputs.length : ℤ) + pdf_in_file mof pp - 1) / pdf_in_file mof pp).toNat := by
    rw [Int.fdiv_eq_ediv _ (by omega : (0:ℤ) ≤ pdf_in_file mof pp)]
    have h := Int.add_mul_ediv_right ((inputs.length : ℤ) - 1) 1
      (by omega : pdf_in_file mof pp ≠ 0)
    rw [one_mul] at h
    rw [show (inputs.length : ℤ) + pdf_in_file mof pp - 1
        = (inputs.length : ℤ) - 1 + pdf_in_file mof pp by ring, h]
  rw [hcnt]
  apply List.map_congr_left
  intro k _
  simp only [Function.comp]
  rw [show pdf_in_file mof pp * ((k : ℤ) + 1)
      = (k : ℤ) * pdf_in_file mof pp + pdf_in_file mof pp from by ring,
    mul_comm (pdf_in_file mof pp) ((k : ℤ)), min_comm]

theorem chunksN_mem_length {α : Type} (m : ℕ) :
    ∀ (n : ℕ) (l : List α), l.length = n → ∀ c ∈ chunksN m l, c.length ≤ max m 1 := by
  intro n
  induction n using Nat.strong_induction_on with
  | _ n ih =>
    intro l hl c hc
    match l with
    | [] => rw [chunksN] at hc; simp at hc
    | a :: l' =>
      rw [chunksN] at hc
      rcases List.mem_cons.mp hc with h | h
      · subst h
        simp only [List.length_cons, List.length_take]
        omega
      · have hlt : (l'.drop (m - 1)).length < n := by
          simp only [List.length_drop, List.length_cons]
          simp only [List.length_cons] at hl
          omega
        exact ih _ hlt _ rfl c h

theorem chunksN_mem_ne_nil {α : Type} (m : ℕ) :
    ∀ (n : ℕ) (l : List α), l.length = n → ∀ c ∈ chunksN m l, c ≠ [] := by
  intro n
  induction n using Nat.strong_induction_on with
  | _ n ih =>
    intro l hl c hc
    match l with
    | [] => rw [chunksN] at hc; simp at hc
    | a :: l' =>
      rw [chunksN] at hc
      rcases List.mem_cons.mp hc with h | h
      · subst h; simp
      · have hlt : (l'.drop (m - 1)).length < n := by
          simp only [List.length_drop, List.length_cons]
          simp only [List.length_cons] at hl
          omega
        exact ih _ hlt _ rfl c h

theorem chunksN_eq_cons {α : Type} (m : ℕ) (hm : 1 ≤ m) (a : α) (l' : List α) :
    chunksN m (a :: l') = (a :: l').take m :: chunksN m ((a :: l').drop m) := by
  rw [chunksN]
  rw [show m = (m - 1) + 1 by omega]
  simp only [List.take_succ_cons, List.drop_succ_cons, Nat.add_sub_cancel]

theorem chunksN_append {α : Type} (m : ℕ) (hm : 1 ≤ m) :
    ∀ (n : ℕ) (l1 : List α), l1.length = n → m ∣ l1.length → ∀ l2 : List α,
      chunksN m (l1 ++ l2) = chunksN m l1 ++ chunksN m l2 := by
  intro n
  induction n using Nat.strong_induction_on with
  | _ n ih =>
    intro l1 hl hdvd l2
    match l1 with
    | [] => simp [chunksN]
    | a :: l1' =>
      have hml : m ≤ (a :: l1').length :=
        Nat.le_of_dvd (by simp) hdvd
      match h2 : (a :: l1') ++ l2 with
      | [] => simp at h2
      | b :: bs =>
        rw [← h2]
        have hne : (a :: l1') ++ l2 = a :: (l1' ++ l2) := by simp
        rw [hne, chunksN_eq_cons m hm, chunksN_eq_cons m hm a l1']
        rw [← hne, List.take_append_of_le_length hml, List.drop_append_of_le_length hml]
        rw [List.cons_append, List.cons.injEq]
        refine ⟨rfl, ?_⟩
        have hdlen : ((a :: l1').drop m).length < n := by
          simp only [List.length_drop]
          simp only [List.length_cons] at hl ⊢
          omega
        have hddvd : m ∣ ((a :: l1').drop m).length := by
          simp only [List.length_drop]
          exact Nat.dvd_sub' hdvd dvd_rfl
        exact ih _ hdlen _ rfl hddvd l2

theorem chunksN_chunksN_flatten {α : Type} (m M : ℕ) (hm : 1 ≤ m) (hM : 1 ≤ M)
    (hdvd : m ∣ M) :
    ∀ (n : ℕ) (l : List α), l.length = n →
      ((chunksN M l).map (chunksN m)).flatten = chunksN m l := by
  intro n
  induction n using Nat.strong_induction_on with
  | _ n ih =>
    intro l hl
    match l with
    | [] => simp [chunksN]
    | a :: l' =>
      rw [chunksN_eq_cons M hM]
      simp only [List.map_cons, List.flatten_cons]
      have hdlen : ((a :: l').drop M).length < n := by
        simp only [List.length_drop]
        simp only [List.length_cons] at hl ⊢
        omega
      rw [ih _ hdlen _ rfl]
      rcases le_or_lt (a :: l').length M with hle | hlt
      · rw [List.take_of_length_le hle, List.drop_eq_nil_of_le hle]
        simp [chunksN]
      · have htake : m ∣ ((a :: l').take M).length := by
          rw [List.length_take, min_eq_left (by omega)]
          exact hdvd
        rw [← chunksN_append m hm _ _ rfl htake, List.take_append_drop]

theorem mapE_append {α β : Type} (f : α → Except String β) (l1 l2 : List α) :
    mapE f (l1 ++ l2)
      = match mapE f l1 with
        | .error e => .error e
        | .ok bs =>
          match mapE f l2 with
          | .error e => .error e
          | .ok cs => .ok (bs ++ cs) := by
  induction l1 with
  | nil =>
    simp only [List.nil_append, mapE]
    cases mapE f l2 <;> rfl
  | cons a l1' ih =>
    simp only [List.cons_append, mapE, List.append_eq, ih]
    cases f a with
    | error e => rfl
    | ok b =>
      cases mapE f l1' with
      | error e => rfl
      | ok bs =>
        cases mapE f l2 <;> rfl

theorem mapE_flattenE {α β : Type} (f : α → Except String β) (L : List (List α)) :
    (match mapE (fun l => mapE f l) L with
      | .error e => .error e
      | .ok rs => .ok rs.flatten)
    = mapE f L.flatten := by
  induction L with
  | nil => rfl
  | cons l L' ih =>
    simp only [List.flatten_cons, mapE_append, mapE]
    rw [← ih]
    cases mapE f l with
    | error e => rfl
    | ok bs =>
      cases mapE (fun l => mapE f l) L' with
      | error e => rfl
      | ok rs => rfl

/-- Batching equivalence: whenever both columns and rows are positive,
`concat_pdf_pages` (direct or batched, for any `mof`) computes exactly the
pages of the direct path. -/
theorem concat_pdf_pages_eq_directPath (mof : ℕ) (col row : ℤ)
    (hc : 1 ≤ col) (hr : 1 ≤ row) (inputs : List Page) :
    concat_pdf_pages mof inputs col row = directPath inputs col row := by
  by_cases hbig : max (mof : ℤ) (col * row) < (inputs.length : ℤ)
  · rw [concat_pdf_pages_big _ _ _ _ hbig]
    unfold use_temp_files
    have hpp : (0:ℤ) < col * row := mul_pos (by omega) (by omega)
    rw [if_neg (by omega : ¬ col * row = 0)]
    have hpif : 1 ≤ pdf_in_file (mof : ℤ) (col * row) :=
      pdf_in_file_pos _ _ (by omega)
    have hpifle : pdf_in_file (mof : ℤ) (col * row) ≤ max (mof : ℤ) (col * row) :=
      pdf_in_file_le _ _ (by omega)
    -- every chunk fits the direct path, so the recursive call is direct
    have hstep : ∀ c ∈ batchChunks (mof : ℤ) inputs (col * row),
        concat_pdf_pages mof c col row
          = mapE (gridBlock col.toNat) (chunksN (col * row).toNat c) := by
      intro c hcmem
      have hlen : c.length ≤ max (pdf_in_file (mof : ℤ) (col * row)).toNat 1 := by
        rw [batchChunks_eq_chunksN _ _ _ (by omega)] at hcmem
        exact chunksN_mem_length _ inputs.length inputs rfl c hcmem
      have hsmall : ¬ max (mof : ℤ) (col * row) < (c.length : ℤ) := by
        push_neg
        calc (c.length : ℤ) ≤ pdf_in_file (mof : ℤ) (col * row) := by omega
          _ ≤ max (mof : ℤ) (col * row) := hpifle
      rw [concat_pdf_pages_small _ _ _ _ hsmall,
        directPath_eq_gridBlocks _ _ _ hc hr]
    rw [mapE_congr hstep, batchChunks_eq_chunksN _ _ _ (by omega)]
    have hmapmap : mapE (fun c => mapE (gridBlock col.toNat) (chunksN (col * row).toNat c))
        (chunksN (pdf_in_file (mof : ℤ) (col * row)).toNat inputs)
        = mapE (fun L => mapE (gridBlock col.toNat) L)
            ((chunksN (pdf_in_file (mof : ℤ) (col * row)).toNat inputs).map
              (chunksN (col * row).toNat)) := by
      rw [mapE_map]
    rw [hmapmap]
    have hdvdZ : (col * row) ∣ pdf_in_file (mof : ℤ) (col * row) :=
      ⟨max (Int.fdiv (mof : ℤ) (col * row)) 1, by unfold pdf_in_file; ring⟩
    have hdvdN : (col * row).toNat ∣ (pdf_in_file (mof : ℤ) (col * row)).toNat := by
      rw [← Int.natCast_dvd_natCast, Int.toNat_of_nonneg (by omega),
        Int.toNat_of_nonneg (by omega)]
      exact hdvdZ
    have hflat := chunksN_chunksN_flatten (col * row).toNat
      (pdf_in_file (mof : ℤ) (col * row)).toNat
      (by omega) (by omega) hdvdN
      inputs.length inputs rfl
    rw [directPath_eq_gridBlocks _ _ _ hc hr, ← hflat,
      ← mapE_flattenE (gridBlock col.toNat)
        ((chunksN (pdf_in_file (mof : ℤ) (col * row)).toNat inputs).map
          (chunksN (col * row).toNat))]
    cases mapE (fun L => mapE (gridBlock col.toNat) L)
        ((chunksN (pdf_in_file (mof : ℤ) (col * row)).toNat inputs).map
          (chunksN (col * row).toNat)) <;> rfl
  · rw [concat_pdf_pages_small _ _ _ _ hbig]

theorem mapE_ok_of_forall {α β : Type} (f : α → Except String β) (l : List α)
    (h : ∀ x ∈ l, ∃ y, f x = .ok y) :
    ∃ out, mapE f l = .ok out ∧ out.length = l.length ∧
      ∀ (k : ℕ) (x : α), l[k]? = some x → ∃ y, f x = .ok y ∧ out[k]? = some y := by
  induction l with
  | nil =>
    refine ⟨[], rfl, rfl, ?_⟩
    intro k x hx
    simp at hx
  | cons a l' ih =>
    obtain ⟨y, hy⟩ := h a (List.mem_cons_self a l')
    obtain ⟨out, hout, hlen, hidx⟩ := ih (fun x hx => h x (List.mem_cons_of_mem a hx))
    refine ⟨y :: out, ?_, by simp [hlen], ?_⟩
    · simp only [mapE, hy, hout]
    · intro k x hx
      cases k with
      | zero =>
        simp only [List.getElem?_cons_zero, Option.some.injEq] at hx
        subst hx
        exact ⟨y, hy, by simp⟩
      | succ k =>
        simp only [List.getElem?_cons_succ] at hx ⊢
        exact hidx k x hx

theorem concat_pdf_ok (p : Page) (rest : List Page) (b : Bool) :
    ∃ r, concat_pdf (p :: rest) b = .ok r := by
  cases b
  · exact ⟨_, concat_pdf_v p rest⟩
  · exact ⟨_, concat_pdf_h p rest⟩

theorem chunksN_eq_nil_iff {α : Type} (m : ℕ) (l : List α) :
    chunksN m l = [] ↔ l = [] := by
  match l with
  | [] => simp [chunksN]
  | a :: l' => rw [chunksN]; simp

theorem gridBlock_ok (colN : ℕ) (block : List Page) (hb : block ≠ []) :
    ∃ pg, gridBlock colN block = .ok pg := by
  have hstrips : ∀ s ∈ chunksN colN block, ∃ r, concat_pdf s true = .ok r := by
    intro s hs
    have hne := chunksN_mem_ne_nil colN block.length block rfl s hs
    match s, hne with
    | q :: qs, _ => exact concat_pdf_ok q qs true
  obtain ⟨rows, hrows, hlen, -⟩ := mapE_ok_of_forall _ _ hstrips
  unfold gridBlock
  rw [hrows]
  have hbne : chunksN colN block ≠ [] := by
    rw [ne_eq, chunksN_eq_nil_iff]
    exact hb
  match rows, hlen with
  | r :: rs, _ => exact concat_pdf_ok r rs false
  | [], hlen =>
    exfalso
    apply hbne
    apply List.length_eq_zero.mp
    simp at hlen
    omega

theorem chunksN_get {α : Type} (m : ℕ) (hm : 1 ≤ m) :
    ∀ (n : ℕ) (l : List α) (b : ℕ), l.length = n → b * m < l.length →
      (chunksN m l)[b]? = some ((l.drop (b * m)).take m) := by
  intro n
  induction n using Nat.strong_induction_on with
  | _ n ih =>
    intro l b hl hb
    match l with
    | [] => simp at hb
    | a :: l' =>
      rw [chunksN_eq_cons m hm]
      cases b with
      | zero => simp
      | succ b =>
        simp only [List.getElem?_cons_succ]
        have hdlen : ((a :: l').drop m).length < n := by
          simp only [List.length_drop, List.length_cons]
          simp only [List.length_cons] at hl
          omega
        have hb' : b * m < ((a :: l').drop m).length := by
          simp only [List.length_drop, List.length_cons]
          simp only [List.length_cons] at hb
          have hbm : (b + 1) * m = b * m + m := by ring
          generalize hX : b * m = X at *
          generalize hY : (b + 1) * m = Y at *
          omega
        rw [ih _ hdlen _ b rfl hb']
        rw [List.drop_drop]
        congr 3
        ring

theorem chunksN_flatten {α : Type} (m : ℕ) (hm : 1 ≤ m) :
    ∀ (n : ℕ) (l : List α), l.length = n → (chunksN m l).flatten = l := by
  intro n
  induction n using Nat.strong_induction_on with
  | _ n ih =>
    intro l hl
    match l with
    | [] => simp [chunksN]
    | a :: l' =>
      rw [chunksN_eq_cons m hm, List.flatten_cons]
      have hdlen : ((a :: l').drop m).length < n := by
        simp only [List.length_drop, List.length_cons]
        simp only [List.length_cons] at hl
        omega
      rw [ih _ hdlen _ rfl, List.take_append_drop]

theorem chunksN_length {α : Type} (m : ℕ) (hm : 1 ≤ m) :
    ∀ (n : ℕ) (l : List α), l.length = n →
      (chunksN m l).length = (l.length + m - 1) / m := by
  intro n
  induction n using Nat.strong_induction_on with
  | _ n ih =>
    intro l hl
    match l with
    | [] =>
      rw [chunksN]
      simp only [List.length_nil, Nat.zero_add]
      rw [Nat.div_eq_of_lt (by omega)]
    | a :: l' =>
      rw [chunksN_eq_cons m hm, List.length_cons]
      have hdlen : ((a :: l').drop m).length < n := by
        simp only [List.length_drop, List.length_cons]
        simp only [List.length_cons] at hl
        omega
      rw [ih _ hdlen _ rfl]
      simp only [List.length_drop, List.length_cons]
      rcases le_or_lt m (l'.length + 1) with hle | hlt
      · have h2 : (l'.length + 1 - m + m - 1) / m + 1
            = (l'.length + 1 - m + m - 1 + m) / m :=
          (Nat.add_div_right _ (by omega)).symm
        rw [h2]
        congr 1
        omega
      · have h1 : l'.length + 1 - m + m - 1 = m - 1 := by omega
        rw [h1, Nat.div_eq_of_lt (by omega)]
        have h3 : (l'.length + 1 + m - 1) / m = 1 :=
          Nat.div_eq_of_lt_le (by omega) (by omega)
        omega

theorem chunksN_dropLast {α : Type} (m : ℕ) (hm : 1 ≤ m) :
    ∀ (n : ℕ) (l : List α), l.length = n →
      ∀ c ∈ (chunksN m l).dropLast, c.length = m := by
  intro n
  induction n using Nat.strong_induction_on with
  | _ n ih =>
    intro l hl c hc
    match l with
    | [] => rw [chunksN] at hc; simp at hc
    | a :: l' =>
      rw [chunksN_eq_cons m hm] at hc
      have hdlen : ((a :: l').drop m).length < n := by
        simp only [List.length_drop, List.length_cons]
        simp only [List.length_cons] at hl
        omega
      match hrest : chunksN m ((a :: l').drop m) with
      | [] => rw [hrest] at hc; simp at hc
      | x :: xs =>
        rw [hrest, List.dropLast_cons₂] at hc
        rcases List.mem_cons.mp hc with h | h
        · subst h
          have hd : (a :: l').drop m ≠ [] := by
            intro hcon
            rw [hcon, chunksN] at hrest
            simp at hrest
          have hml : m < (a :: l').length := by
            by_contra hcon
            push_neg at hcon
            exact hd (List.drop_eq_nil_of_le hcon)
          simp only [List.length_take]
          omega
        · rw [← hrest] at h
          exact ih _ hdlen _ rfl c h

theorem map_translate_zero (l : List Item) : l.map (Item.translate 0 0) = l := by
  induction l with
  | nil => rfl
  | cons a l ih => simp [Item.translate, ih]

/-- Indexing into the chunk decomposition: element `i` of `l` sits in
chunk `i / m` at position `i % m`. -/
theorem chunksN_cell {α : Type} (m : ℕ) (hm : 1 ≤ m) (l : List α) (i : ℕ)
    (hi : i < l.length) :
    ∃ blk, (chunksN m l)[i / m]? = some blk ∧ blk[i % m]? = l[i]? ∧ i % m < blk.length := by
  have hb : (i / m) * m < l.length := lt_of_le_of_lt (Nat.div_mul_le_self i m) hi
  have hc := chunksN_get m hm l.length l (i / m) rfl hb
  have hmod : i % m < m := Nat.mod_lt i (by omega)
  have hsum : (i / m) * m + i % m = i := by
    rw [Nat.mul_comm]
    exact Nat.div_add_mod i m
  refine ⟨_, hc, ?_, ?_⟩
  · rw [List.getElem?_take_of_lt hmod, List.getElem?_drop, hsum]
  · simp only [List.length_take, List.length_drop]
    generalize hX : (i / m) * m = X at *
    generalize hR : i % m = R at *
    omega

/-- C1: For every input file list, columns ≥ 1, rows ≥ 1, the final output
produced via the direct path (`concat_pdf_pages` without batching) and via
the batched path (`use_temp_files`, forced by a small `maxOpenFiles`) is
identical: `concat_pdf_pages` — for any `mof`, hence whether or not
batching triggers — equals the direct path's pages exactly (same number of
output pages, same per-page bounding boxes, same per-cell placement
offsets, since pages carry their placed items). -/
theorem claim_C1_batching_equivalence (mof : ℕ) (col row : ℤ)
    (hc : 1 ≤ col) (hr : 1 ≤ row) (inputs : List Page) :
    concat_pdf_pages mof inputs col row = directPath inputs col row :=
  concat_pdf_pages_eq_directPath mof col row hc hr inputs

theorem claim_C1_witness :
    concat_pdf_pages 2 [leafPage 0 1 1, leafPage 1 2 1, leafPage 2 3 1] 1 1
      = directPath [leafPage 0 1 1, leafPage 1 2 1, leafPage 2 3 1] 1 1 :=
  claim_C1_batching_equivalence 2 1 1 (by norm_num) (by norm_num) _

/-- C2: For every non-empty sequence of pages, horizontal composition
(`concat_pdf` with `horizontal = true`) returns a page whose width equals
the sum of all input widths and whose height equals the maximum of all
input heights (it is one of the heights and bounds them all), with page
`k` placed at horizontal offset equal to the sum of the widths of pages
`0..k-1` (`hOffsets`) and vertical offset 0. -/
theorem claim_C2_horizontal (p0 : Page) (rest : List Page) :
    ∃ r, concat_pdf (p0 :: rest) true = .ok r ∧
      r.width = ((p0 :: rest).map Page.width).sum ∧
      r.height ∈ (p0 :: rest).map Page.height ∧
      (∀ h ∈ (p0 :: rest).map Page.height, h ≤ r.height) ∧
      r.items = ((p0 :: rest).zip (hOffsets (p0 :: rest))).flatMap
          (fun q => q.1.items.map (Item.translate q.2 0)) := by
  refine ⟨_, concat_pdf_h p0 rest, ?_, ?_, ?_, ?_⟩
  · simp
  · simpa using foldl_max_mem (rest.map Page.height) p0.height
  · intro h hh
    obtain ⟨h1, h2⟩ := le_foldl_max (rest.map Page.height) p0.height
    simp only [List.map_cons, List.mem_cons] at hh
    rcases hh with rfl | hh
    · exact h1
    · exact h2 _ hh
  · show p0.items ++ placeRow p0.width rest = _
    have h0 : placeRow 0 (p0 :: rest) = p0.items ++ placeRow p0.width rest := by
      simp [placeRow, map_translate_zero]
    rw [← h0, placeRow_eq_zip, hOffsetsFrom_zero]

/-- C3: For every non-empty sequence of pages, vertical composition
(`concat_pdf` with `horizontal = false`) returns a page whose width equals
the maximum of all input widths (one of them, bounding them all) and whose
height equals the sum of all input heights, with the first page placed at
vertical offset `H − h₀` (visually at the top) and each subsequent page
`k` at `offset_k = offset_{k-1} − h_k` (the recurrence defining
`vOffsetsFrom H`), all at horizontal offset 0. -/
theorem claim_C3_vertical (p0 : Page) (rest : List Page) :
    ∃ r, concat_pdf (p0 :: rest) false = .ok r ∧
      r.width ∈ (p0 :: rest).map Page.width ∧
      (∀ w ∈ (p0 :: rest).map Page.width, w ≤ r.width) ∧
      r.height = ((p0 :: rest).map Page.height).sum ∧
      r.items = ((p0 :: rest).zip
          (vOffsetsFrom (((p0 :: rest).map Page.height).sum) (p0 :: rest))).flatMap
          (fun q => q.1.items.map (Item.translate 0 q.2)) := by
  refine ⟨_, concat_pdf_v p0 rest, ?_, ?_, ?_, ?_⟩
  · simpa using foldl_max_mem (rest.map Page.width) p0.width
  · intro w hw
    obtain ⟨h1, h2⟩ := le_foldl_max (rest.map Page.width) p0.width
    simp only [List.map_cons, List.mem_cons] at hw
    rcases hw with rfl | hw
    · exact h1
    · exact h2 _ hw
  · simp
  · show p0.items.map (Item.translate 0 _) ++ placeColAfter _ rest = _
    simp only [List.map_cons, List.sum_cons, vOffsetsFrom, List.zip_cons_cons,
      List.flatMap_cons]
    rw [← placeColAfter_eq_zip]

/-- C4: For every input list, columns ≥ 1 and rows ≥ 1 with
capacity = columns×rows, the page at input index `i` is placed on output
page `⌊i/capacity⌋`: that output page is the grid page built from block
`⌊i/capacity⌋` of the chunk decomposition, and inside that block, input
`i` is the entry of row strip `⌊(i mod capacity)/columns⌋` at column
`(i mod capacity) mod columns` (row-major).  This holds for
`concat_pdf_pages` at any `mof`, so batch splitting never alters the
ordering after the final merge. -/
theorem claim_C4_grid_placement (mof : ℕ) (col row : ℤ) (hc : 1 ≤ col)
    (hr : 1 ≤ row) (inputs : List Page) (i : ℕ) (hi : i < inputs.length) :
    ∃ (outPages block strip : List Page) (page : Page),
      concat_pdf_pages mof inputs col row = .ok outPages ∧
      (chunksN (col * row).toNat inputs)[i / (col * row).toNat]? = some block ∧
      block[i % (col * row).toNat]? = inputs[i]? ∧
      (chunksN col.toNat block)[(i % (col * row).toNat) / col.toNat]? = some strip ∧
      strip[(i % (col * row).toNat) % col.toNat]? = inputs[i]? ∧
      gridBlock col.toNat block = .ok page ∧
      outPages[i / (col * row).toNat]? = some page := by
  have hpp : (0:ℤ) < col * row := mul_pos (by omega) (by omega)
  have hcap1 : 1 ≤ (col * row).toNat := by omega
  have hcol1 : 1 ≤ col.toNat := by omega
  obtain ⟨block, hblock, hcell, hlenR⟩ := chunksN_cell (col * row).toNat hcap1 inputs i hi
  obtain ⟨strip, hstrip, hcell2, -⟩ :=
    chunksN_cell col.toNat hcol1 block (i % (col * row).toNat) hlenR
  have hbne : block ≠ [] := by
    intro hcon
    rw [hcon] at hlenR
    simp at hlenR
  obtain ⟨page, hpage⟩ := gridBlock_ok col.toNat block hbne
  have hall : ∀ b ∈ chunksN (col * row).toNat inputs,
      ∃ pg, gridBlock col.toNat b = .ok pg := fun b hbmem =>
    gridBlock_ok _ _ (chunksN_mem_ne_nil _ inputs.length inputs rfl b hbmem)
  obtain ⟨out, hout, -, hidx⟩ :=
    mapE_ok_of_forall (gridBlock col.toNat) (chunksN (col * row).toNat inputs) hall
  obtain ⟨page', hpage', hout'⟩ := hidx (i / (col * row).toNat) block hblock
  have hpp' : page' = page := by
    rw [hpage] at hpage'
    cases hpage'
    rfl
  refine ⟨out, block, strip, page, ?_, hblock, hcell, hstrip, hcell2.trans hcell,
    hpage, by rw [hout', hpp']⟩
  rw [concat_pdf_pages_eq_directPath mof col row hc hr,
    directPath_eq_gridBlocks _ _ _ hc hr, hout]

theorem claim_C4_witness :
    ∃ (outPages block strip : List Page) (page : Page),
      concat_pdf_pages 30
          [leafPage 0 1 1, leafPage 1 1 1, leafPage 2 1 1, leafPage 3 1 1,
           leafPage 4 1 1] 2 2 = .ok outPages ∧
      (chunksN ((2 : ℤ) * 2).toNat
          [leafPage 0 1 1, leafPage 1 1 1, leafPage 2 1 1, leafPage 3 1 1,
           leafPage 4 1 1])[3 / ((2 : ℤ) * 2).toNat]? = some block ∧
      block[3 % ((2 : ℤ) * 2).toNat]? =
        [leafPage 0 1 1, leafPage 1 1 1, leafPage 2 1 1, leafPage 3 1 1,
         leafPage 4 1 1][3]? ∧
      (chunksN (2 : ℤ).toNat block)[(3 % ((2 : ℤ) * 2).toNat) / (2 : ℤ).toNat]?
        = some strip ∧
      strip[(3 % ((2 : ℤ) * 2).toNat) % (2 : ℤ).toNat]? =
        [leafPage 0 1 1, leafPage 1 1 1, leafPage 2 1 1, leafPage 3 1 1,
         leafPage 4 1 1][3]? ∧
      gridBlock (2 : ℤ).toNat block = .ok page ∧
      outPages[3 / ((2 : ℤ) * 2).toNat]? = some page :=
  claim_C4_grid_placement 30 2 2 (by norm_num) (by norm_num) _ 3 (by norm_num)

/-- C5: `concat_pdf_pages` takes the direct path if and only if the number
of input files is ≤ `max(maxOpenFiles, columns×rows)`; otherwise it
delegates to the batched path `use_temp_files`. -/
theorem claim_C5_dispatch (mof : ℕ) (inputs : List Page) (col row : ℤ) :
    ((inputs.length : ℤ) ≤ max (mof : ℤ) (col * row) →
      concat_pdf_pages mof inputs col row = directPath inputs col row) ∧
    (max (mof : ℤ) (col * row) < (inputs.length : ℤ) →
      concat_pdf_pages mof inputs col row = use_temp_files mof inputs col row) :=
  ⟨fun h => concat_pdf_pages_small _ _ _ _ (not_lt.mpr h),
   fun h => concat_pdf_pages_big _ _ _ _ h⟩

theorem claim_C5_witness :
    concat_pdf_pages 30 [leafPage 0 1 1] 1 1 = directPath [leafPage 0 1 1] 1 1 ∧
    concat_pdf_pages 1 [leafPage 0 1 1, leafPage 1 1 1] 1 1
      = use_temp_files 1 [leafPage 0 1 1, leafPage 1 1 1] 1 1 :=
  ⟨(claim_C5_dispatch 30 [leafPage 0 1 1] 1 1).1 (by norm_num),
   (claim_C5_dispatch 1 [leafPage 0 1 1, leafPage 1 1 1] 1 1).2 (by norm_num)⟩

/-- C6: On the batched path with columns ≥ 1, rows ≥ 1 and
capacity = columns×rows, the chunk size `pdf_in_file` is a multiple of the
capacity, at least one grid's worth, at most `maxOpenFiles` whenever
capacity ≤ `maxOpenFiles` (and then the largest such multiple), and equal
to the capacity when capacity > `maxOpenFiles`; the input list is split
into `⌈N/pdf_in_file⌉` consecutive chunks of that size (`batchChunks` is
exactly the `chunksN pdf_in_file` decomposition: its chunks concatenate
back to the input, every chunk has at most `pdf_in_file` elements, and
every chunk except possibly the last has exactly `pdf_in_file` elements),
each chunk producing one intermediate file. -/
theorem claim_C6_batch_shape (mof : ℕ) (col row : ℤ) (hc : 1 ≤ col)
    (hr : 1 ≤ row) (inputs : List Page) :
    (col * row) ∣ pdf_in_file (mof : ℤ) (col * row) ∧
    col * row ≤ pdf_in_file (mof : ℤ) (col * row) ∧
    (col * row ≤ (mof : ℤ) →
      pdf_in_file (mof : ℤ) (col * row) ≤ (mof : ℤ) ∧
      ∀ m' : ℤ, (col * row) ∣ m' → m' ≤ (mof : ℤ) →
        m' ≤ pdf_in_file (mof : ℤ) (col * row)) ∧
    ((mof : ℤ) < col * row → pdf_in_file (mof : ℤ) (col * row) = col * row) ∧
    batchChunks (mof : ℤ) inputs (col * row)
      = chunksN (pdf_in_file (mof : ℤ) (col * row)).toNat inputs ∧
    (batchChunks (mof : ℤ) inputs (col * row)).length
      = (inputs.length + (pdf_in_file (mof : ℤ) (col * row)).toNat - 1)
          / (pdf_in_file (mof : ℤ) (col * row)).toNat ∧
    (batchChunks (mof : ℤ) inputs (col * row)).flatten = inputs ∧
    (∀ c ∈ batchChunks (mof : ℤ) inputs (col * row),
      c.length ≤ (pdf_in_file (mof : ℤ) (col * row)).toNat) ∧
    (∀ c ∈ (batchChunks (mof : ℤ) inputs (col * row)).dropLast,
      c.length = (pdf_in_file (mof : ℤ) (col * row)).toNat) := by
  have hpp : (0:ℤ) < col * row := mul_pos (by omega) (by omega)
  have hpif : 1 ≤ pdf_in_file (mof : ℤ) (col * row) :=
    pdf_in_file_pos _ _ (by omega)
  have heq := batchChunks_eq_chunksN (mof : ℤ) inputs (col * row) (by omega)
  refine ⟨⟨max (Int.fdiv (mof : ℤ) (col * row)) 1, by unfold pdf_in_file; ring⟩,
    ?_, ?_, ?_, heq, ?_, ?_, ?_, ?_⟩
  · have h := mul_le_mul_of_nonneg_right
      (le_max_right (Int.fdiv (mof : ℤ) (col * row)) 1) (by omega : (0:ℤ) ≤ col * row)
    unfold pdf_in_file
    linarith
  · intro hcm
    have hediv : Int.fdiv (mof : ℤ) (col * row) = (mof : ℤ) / (col * row) :=
      Int.fdiv_eq_ediv _ (by omega)
    have h1 : 1 ≤ (mof : ℤ) / (col * row) :=
      (Int.le_ediv_iff_mul_le hpp).mpr (by linarith [one_mul (col * row)])
    have hmax : max (Int.fdiv (mof : ℤ) (col * row)) 1 = (mof : ℤ) / (col * row) := by
      rw [hediv, max_eq_left h1]
    constructor
    · unfold pdf_in_file
      rw [hmax]
      exact Int.ediv_mul_le _ (by omega)
    · intro m' hdvd hle
      obtain ⟨k, rfl⟩ := hdvd
      have hk : k ≤ (mof : ℤ) / (col * row) :=
        (Int.le_ediv_iff_mul_le hpp).mpr (by linarith [mul_comm (col * row) k])
      unfold pdf_in_file
      rw [hmax]
      calc col * row * k = k * (col * row) := by ring
        _ ≤ ((mof : ℤ) / (col * row)) * (col * row) :=
            mul_le_mul_of_nonneg_right hk (by omega)
  · intro hlt
    have h0 : Int.fdiv (mof : ℤ) (col * row) = 0 := by
      rw [Int.fdiv_eq_ediv _ (by omega)]
      exact Int.ediv_eq_zero_of_lt (Int.natCast_nonneg mof) hlt
    unfold pdf_in_file
    rw [h0]
    simp
  · rw [heq]
    exact chunksN_length _ (by omega) inputs.length inputs rfl
  · rw [heq]
    exact chunksN_flatten _ (by omega) inputs.length inputs rfl
  · intro c hcm
    rw [heq] at hcm
    have := chunksN_mem_length (pdf_in_file (mof : ℤ) (col * row)).toNat
      inputs.length inputs rfl c hcm
    omega
  · intro c hcm
    rw [heq] at hcm
    exact chunksN_dropLast _ (by omega) inputs.length inputs rfl c hcm

theorem claim_C6_witness :
    batchChunks ((5 : ℕ) : ℤ)
        [leafPage 0 1 1, leafPage 1 1 1, leafPage 2 1 1, leafPage 3 1 1,
         leafPage 4 1 1, leafPage 5 1 1, leafPage 6 1 1] ((2 : ℤ) * 1)
      = chunksN (pdf_in_file ((5 : ℕ) : ℤ) ((2 : ℤ) * 1)).toNat
        [leafPage 0 1 1, leafPage 1 1 1, leafPage 2 1 1, leafPage 3 1 1,
         leafPage 4 1 1, leafPage 5 1 1, leafPage 6 1 1] :=
  (claim_C6_batch_shape 5 2 1 (by norm_num) (by norm_num) _).2.2.2.2.1

/-- C7: Invoking composition (`concat_pdf`) with an empty page sequence
fails with `ValueError` ("pages must be a non-empty list"), in either
direction, and produces no page. -/
theorem claim_C7_empty_pages (horizontal : Bool) :
    concat_pdf [] horizontal = .error "pages must be a non-empty list" := rfl

/-- C8 counterexample: with columns = -1 (< 1) and rows = 1,
`concat_pdf_pages` does not fail — the outer Python `range(0, 1, -1)` is
empty, so the code silently writes an output file with zero pages. -/
theorem claim_C8_counterexample :
    concat_pdf_pages 30 [leafPage 0 100 200] (-1) 1 = .ok [] := by
  rw [concat_pdf_pages_small 30 [leafPage 0 100 200] (-1) 1 (by norm_num)]
  rfl

/-- C8 amended: `concat_pdf_pages` fails (with a `ValueError` from `range`
on the direct path or a `ZeroDivisionError` on the batched path, writing
no output file) exactly when columns×rows = 0; for other non-positive
column/row combinations it does not generally fail (see the
counterexample, where an output file with zero pages is written).  It
never treats non-positive values as infinite. -/
theorem claim_C8_amended (mof : ℕ) (inputs : List Page) (col row : ℤ)
    (h : col * row = 0) :
    ∃ e, concat_pdf_pages mof inputs col row = .error e := by
  by_cases hbig : max (mof : ℤ) (col * row) < (inputs.length : ℤ)
  · rw [concat_pdf_pages_big _ _ _ _ hbig]
    unfold use_temp_files
    rw [if_pos h]
    exact ⟨_, rfl⟩
  · rw [concat_pdf_pages_small _ _ _ _ hbig]
    unfold directPath
    rw [if_pos h]
    exact ⟨_, rfl⟩

theorem claim_C8_witness :
    ∃ e, concat_pdf_pages 30 [leafPage 0 100 200] 0 5 = .error e :=
  claim_C8_amended 30 [leafPage 0 100 200] 0 5 (by norm_num)

/-- C9 counterexample: invoking the pipeline with an empty input file list
does not fail — `concat_pdf_pages` with no inputs writes an output file
with zero pages. -/
theorem claim_C9_counterexample :
    concat_pdf_pages 30 [] 1 1 = .ok [] := by
  rw [concat_pdf_pages_small 30 [] 1 1 (by norm_num)]
  rfl

/-- C9 amended: for any `mof` and any columns×rows ≠ 0, an empty input
file list is not rejected: the pipeline succeeds and writes an output
file containing zero pages. -/
theorem claim_C9_amended (mof : ℕ) (col row : ℤ) (h : col * row ≠ 0) :
    concat_pdf_pages mof [] col row = .ok [] := by
  have h0 : ¬ max (mof : ℤ) (col * row) < (([] : List Page).length : ℤ) := by
    simp only [List.length_nil, Nat.cast_zero, not_lt]
    exact le_max_of_le_left (Int.natCast_nonneg mof)
  rw [concat_pdf_pages_small _ _ _ _ h0]
  unfold directPath
  rw [if_neg h]
  rcases lt_or_gt_of_ne h with hneg | hpos
  · unfold pyRange0
    rw [if_neg (by omega)]
    rfl
  · rw [show (([] : List Page).length : ℤ) = 0 by simp,
      pyRange0_nonpos 0 (col * row) (by omega) (by omega)]
    rfl

theorem claim_C9_witness :
    concat_pdf_pages 30 [] 2 3 = .ok [] :=
  claim_C9_amended 30 2 3 (by norm_num)

/-- C10: For every non-empty page sequence of nonnegative heights, in
vertical composition the vertical offset assigned to page `k` equals the
total height minus the sum of the heights of pages `0..k`
(`vOffsetsClosed`); consequently the last page is placed at vertical
offset exactly 0 and every placement offset is nonnegative. -/
theorem claim_C10_vertical_closed (p0 : Page) (rest : List Page)
    (hh : ∀ q ∈ p0 :: rest, 0 ≤ q.height) :
    ∃ r, concat_pdf (p0 :: rest) false = .ok r ∧
      r.items = ((p0 :: rest).zip (vOffsetsClosed (p0 :: rest))).flatMap
          (fun q => q.1.items.map (Item.translate 0 q.2)) ∧
      (vOffsetsClosed (p0 :: rest)).getLast? = some 0 ∧
      ∀ o ∈ vOffsetsClosed (p0 :: rest), 0 ≤ o := by
  have hclosed : vOffsetsFrom (((p0 :: rest).map Page.height).sum) (p0 :: rest)
      = vOffsetsClosed (p0 :: rest) := by
    rw [vOffsetsFrom_closed]
    rfl
  refine ⟨_, concat_pdf_v p0 rest, ?_, ?_, ?_⟩
  · show p0.items.map (Item.translate 0 _) ++ placeColAfter _ rest = _
    rw [← hclosed]
    simp only [List.map_cons, List.sum_cons, vOffsetsFrom, List.zip_cons_cons,
      List.flatMap_cons]
    rw [← placeColAfter_eq_zip]
  · unfold vOffsetsClosed
    rw [List.getLast?_map, show (p0 :: rest).length = rest.length + 1 from rfl,
      List.range_succ, List.getLast?_concat]
    have htake : (p0 :: rest).take (rest.length + 1) = p0 :: rest :=
      List.take_of_length_le (by simp)
    simp [htake]
    rw [show List.take rest.length (List.map Page.height rest)
        = List.map Page.height rest from by
      conv_lhs => rw [show rest.length = (List.map Page.height rest).length from by simp]
      exact List.take_length _]
    simp
  · intro o ho
    unfold vOffsetsClosed at ho
    simp only [List.mem_map, List.mem_range] at ho
    obtain ⟨k, hk, rfl⟩ := ho
    rw [List.map_take]
    have hsplit := List.sum_take_add_sum_drop ((p0 :: rest).map Page.height) (k + 1)
    have hdrop : 0 ≤ (((p0 :: rest).map Page.height).drop (k + 1)).sum := by
      apply List.sum_nonneg
      intro x hx
      have hx' : x ∈ (p0 :: rest).map Page.height := List.mem_of_mem_drop hx
      obtain ⟨q, hq, rfl⟩ := List.mem_map.mp hx'
      exact hh q hq
    linarith

theorem claim_C10_witness :
    ∃ r, concat_pdf [leafPage 0 100 200, leafPage 1 50 150] false = .ok r ∧
      r.items = (([leafPage 0 100 200, leafPage 1 50 150]).zip
          (vOffsetsClosed [leafPage 0 100 200, leafPage 1 50 150])).flatMap
          (fun q => q.1.items.map (Item.translate 0 q.2)) ∧
      (vOffsetsClosed [leafPage 0 100 200, leafPage 1 50 150]).getLast? = some 0 ∧
      ∀ o ∈ vOffsetsClosed [leafPage 0 100 200, leafPage 1 50 150], 0 ≤ o :=
  claim_C10_vertical_closed (leafPage 0 100 200) [leafPage 1 50 150] (by decide)

end Pdfgridcat
